import Mathlib

/-! Verification of the document persistence and schema-path resolution engine of
mongoose-couch (`lib/model.js` together with the cradle driver collection).

The JavaScript code is embedded shallowly: callback-driven control flow becomes
explicit state passing plus observation traces, backend round trips become
explicit outcome parameters, and JavaScript arrays (including sparse arrays
produced by out-of-range index assignment) become Lean lists.  Code missing
from the sources (`document.js` `init`, `promise.js`) is modelled from the
specification where a claim depends on it; each such definition says so in its
doc comment.
-/

set_option autoImplicit false

namespace MongooseCouch

/-! Section: document save state machine (`Model.prototype.save` / `handleSave`). -/

/-- Per-document state relevant to `Model.prototype.save`
(src/lib/model.js:121-151): the `isNew` flag, the `$__.inserting` retry flag,
and the backend-assigned identifier and revision. -/
structure DocState where
  isNew : Bool
  inserting : Bool
  docId : Option String
  docRev : Option String
  deriving DecidableEq, Repr

/-- Lifecycle signals produced by `save` and its completion handler. -/
inductive SaveEvent where
  | isNewEv (b : Bool)
  | saveEv (numAffected : Nat)
  | promiseComplete (numAffected : Nat)
  | promiseError (e : String)
  deriving DecidableEq, Repr

/-- The backend's answer to `collection.insert` (the couch driver maps both
inserts and updates onto `collection.save`): an id/rev echo. -/
structure SaveResult where
  id : String
  rev : String
  deriving DecidableEq, Repr

/-- The synchronous part of `Model.prototype.save` (src/lib/model.js:121-151):
on a new document it issues the insert, resets dirty state, flips `isNew` to
`false` and sets `$__.inserting`; on an existing document it clears
`$__.inserting` and issues the update.  Both branches emit `isNew false`. -/
def saveIssue (d : DocState) : DocState × List SaveEvent :=
  if d.isNew then
    ({ d with isNew := false, inserting := true }, [SaveEvent.isNewEv false])
  else
    ({ d with inserting := false }, [SaveEvent.isNewEv false])

/-- Embedding of `handleSave` (src/lib/model.js:69-92): the completion callback attached to
the backend call.  On an error it restores `isNew := true` only when the
in-flight operation was an insert (`$__.inserting`); on success it adopts the
backend id/rev and signals completion. -/
def handleSave (d : DocState) (outcome : Except String SaveResult) :
    DocState × List SaveEvent :=
  match outcome with
  | Except.error e =>
      if d.inserting then
        ({ d with isNew := true }, [SaveEvent.isNewEv true, SaveEvent.promiseError e])
      else
        (d, [SaveEvent.promiseError e])
  | Except.ok r =>
      ({ d with docId := some r.id, docRev := some r.rev },
        [SaveEvent.saveEv 1, SaveEvent.promiseComplete 1])

/-- A full save round trip: the synchronous issue step followed by the backend
acknowledgment arriving at `handleSave`. -/
def saveRoundTrip (d : DocState) (outcome : Except String SaveResult) :
    DocState × List SaveEvent :=
  handleSave (saveIssue d).1 outcome

/-! Section: index sequencer (`Model.ensureIndexes`). -/

/-- One index specification `[keys, options]` from `schema.indexes()`. -/
structure IndexSpec where
  keys : String
  opts : String
  deriving DecidableEq, Repr

/-- Observable outcome of one `ensureIndexes` run: the specs actually sent to
`collection.ensureIndex`, the argument of the `index` lifecycle event
(`none` if the event was never emitted, which happens only on an empty spec
list), and the error handed to the caller's callback. -/
structure IndexRun where
  issued : List IndexSpec
  indexEvent : Option (Option String)
  cbArg : Option String
  deriving DecidableEq, Repr

/-- The `create`/`done` loop of `Model.ensureIndexes`
(src/lib/model.js:286-303): shift the next spec, send it, and only in the
success continuation of its acknowledgment send the following one; the first
error goes to `done`, which emits the `index` event and calls the callback
with the same error.  Each spec is paired with the backend outcome its
`ensureIndex` call would report. -/
def ensureIndexesGo : List (IndexSpec × Option String) → IndexRun
  | [] => { issued := [], indexEvent := some none, cbArg := none }
  | (s, some e) :: _ => { issued := [s], indexEvent := some (some e), cbArg := some e }
  | (s, none) :: rest =>
      let r := ensureIndexesGo rest
      { r with issued := s :: r.issued }

/-- Embedding of `Model.ensureIndexes` (src/lib/model.js:274-304): an empty spec list
returns early (callback on the next tick, no `index` event); otherwise the
sequential `create` loop runs. -/
def ensureIndexes (specs : List (IndexSpec × Option String)) : IndexRun :=
  if specs.isEmpty then { issued := [], indexEvent := none, cbArg := none }
  else ensureIndexesGo specs

/-! Section: hydrator (`Model.hydrate`, src/lib/model.js:496-514, and the
`hydrate` helper, src/lib/model.js:1120-1138). -/

/-- The outcome of one record's `init`: `some e` means initialization failed
with error `e`.  Modelled from the spec: `document.js` is not among the
sources; per §5 of the spec everything outside backend round trips is
synchronous, so `init` invokes its callback synchronously. -/
abbrev InitOutcome := Option String

/-- One invocation of the caller's hydrate callback.  Entities are identified
by the index of the raw record they were built from. -/
inductive HydrateCall where
  | errored (e : String)
  | deliveredArr (entities : List Nat)
  | deliveredOne (entity : Nat)
  deriving DecidableEq, Repr

/-- The shared body of both hydrate functions: the loop constructs `arr[i]`
from `docs[i]` and calls `init`; an init error invokes the callback with that
error (the `return` leaves only the init callback); the trailing countdown
expression discards its value, and the final callback fires unconditionally
after the loop.  `finalIsArr` is the value the shape test reads at the final
callback: the first copy passes the `docArray` flag saved before `docs` was
reassigned, the second copy re-evaluates `Array.isArray(docs)` after the
reassignment. -/
def hydrateLoop (docs : List InitOutcome) (finalIsArr : Bool) : List HydrateCall :=
  (docs.filterMap fun o => o.map HydrateCall.errored) ++
    [if finalIsArr then HydrateCall.deliveredArr (List.range docs.length)
     else HydrateCall.deliveredOne 0]

/-- Embedding of `Model.hydrate` (first copy, src/lib/model.js:496-514): the input shape is
saved in `docArray` before normalization, and the final callback delivers
`arr` or `arr[0]` according to that saved flag. -/
def hydrateA : Sum InitOutcome (List InitOutcome) → List HydrateCall
  | Sum.inl o => hydrateLoop [o] false
  | Sum.inr l => hydrateLoop l true

/-- The `hydrate` helper (second copy, src/lib/model.js:1120-1138): `docs` is
reassigned to `[docs]` when it is not an array, and the final shape test
re-reads `Array.isArray(docs)` on the reassigned variable, which is therefore
always true. -/
def hydrateB : Sum InitOutcome (List InitOutcome) → List HydrateCall
  | Sum.inl o => hydrateLoop [o] true
  | Sum.inr l => hydrateLoop l true

/-! Section: bulk remove (`Model.remove` and `NativeCollection.prototype.bulkRemove`). -/

/-- A JavaScript value stored in a raw document field. -/
inductive JValue where
  | jbool (b : Bool)
  | jstr (s : String)
  deriving DecidableEq, Repr

/-- A raw backend document: an object embedded as an association list of
distinct field names. -/
abbrev RawDoc := List (String × JValue)

/-- JavaScript property assignment `doc[k] = v`: overwrite the binding if the
key is present, append it otherwise. -/
def setField : RawDoc → String → JValue → RawDoc
  | [], k, v => [(k, v)]
  | (k', w) :: rest, k, v =>
      if k' = k then (k, v) :: rest else (k', w) :: setField rest k v

/-- JavaScript property read `doc[k]`. -/
def getField : RawDoc → String → Option JValue
  | [], _ => none
  | (k', w) :: rest, k => if k' = k then some w else getField rest k

/-- What `bulkRemove` leaves behind: the caller's array elements after the
call, and the payload handed to `collection.save`. -/
structure BulkRemoveResult where
  docsAfter : List RawDoc
  savePayload : List RawDoc
  deriving DecidableEq, Repr

/-- Embedding of `NativeCollection.prototype.bulkRemove` (cradle driver
collection, lines 91-98): a `forEach` sets `_deleted = true` on every document object the caller
supplied, then the very same array is passed to `collection.save`. -/
def bulkRemove (docs : List RawDoc) : BulkRemoveResult :=
  let mutated := docs.map fun d => setField d "_deleted" (JValue.jbool true)
  { docsAfter := mutated, savePayload := mutated }

/-- Embedding of class-level `Model.remove` (src/lib/model.js:372-374): forwards the caller
supplied documents to `collection.bulkRemove` unchanged. -/
def modelRemoveBulk (docs : List RawDoc) : BulkRemoveResult :=
  bulkRemove docs

/-! Section: instance removal (`Model.prototype.remove`, src/lib/model.js:170-191). -/

/-- Backend outcome of a `collection.remove` call. -/
inductive RemOutcome where
  | ok
  | fail (e : String)
  deriving DecidableEq, Repr

/-- The promise stored in `$__.removing`.  Modelled from the spec where it
exceeds the sources: `promise.js` is not among them, and §4.2 states that
attached completion callbacks all fire, in registration order, with the
operation's one outcome; a callback attached after completion receives the
stored outcome immediately. -/
structure RemovePromise where
  callbacks : List Nat
  result : Option RemOutcome
  deriving DecidableEq, Repr

/-- Removal-relevant state of one entity: the `$__.removing` pending marker. -/
structure RemoveState where
  removing : Option RemovePromise
  deriving DecidableEq, Repr

/-- Observations produced while processing removal activity. -/
inductive RemoveObs where
  | backendRemove
  | callbackFired (cb : Nat) (r : RemOutcome)
  | removeEvent
  deriving DecidableEq, Repr

/-- A caller's `remove(fn)` request (src/lib/model.js:170-178): while
`$__.removing` is set the callback is attached to that same promise via
`addBack` and nothing is sent to the backend; otherwise a fresh promise is
stored in `$__.removing` and one `collection.remove` is issued. -/
def removeRequest (st : RemoveState) (cb : Nat) : RemoveState × List RemoveObs :=
  match st.removing with
  | some p =>
      match p.result with
      | none =>
          ({ removing := some { p with callbacks := p.callbacks ++ [cb] } }, [])
      | some r =>
          ({ removing := some { p with callbacks := p.callbacks ++ [cb] } },
            [RemoveObs.callbackFired cb r])
  | none =>
      ({ removing := some { callbacks := [cb], result := none } },
        [RemoveObs.backendRemove])

/-- The backend acknowledgment of the in-flight remove
(src/lib/model.js:179-188): on an error the promise errors and the chained
null assignment clears `self.$__.removing`; on success the `remove` event is
emitted and the promise completes, but the null-assignment chain of the
success branch does not include `self.$__.removing`, so the marker keeps the
now-completed promise. -/
def removeSettle (st : RemoveState) (r : RemOutcome) : RemoveState × List RemoveObs :=
  match st.removing with
  | none => (st, [])
  | some p =>
      match r with
      | RemOutcome.fail e =>
          ({ removing := none },
            p.callbacks.map fun cb => RemoveObs.callbackFired cb (RemOutcome.fail e))
      | RemOutcome.ok =>
          ({ removing := some { p with result := some RemOutcome.ok } },
            RemoveObs.removeEvent ::
              p.callbacks.map fun cb => RemoveObs.callbackFired cb RemOutcome.ok)

/-- Removal activity against one entity. -/
inductive RemoveEvent where
  | request (cb : Nat)
  | settle (r : RemOutcome)
  deriving DecidableEq, Repr

/-- Run a sequence of removal events, collecting all observations. -/
def removeRun : RemoveState → List RemoveEvent → RemoveState × List RemoveObs
  | st, [] => (st, [])
  | st, ev :: rest =>
      let s1 := match ev with
        | RemoveEvent.request cb => removeRequest st cb
        | RemoveEvent.settle r => removeSettle st r
      let s2 := removeRun s1.1 rest
      (s2.1, s1.2 ++ s2.2)

/-! Section: schema path resolver (`Model._getSchema`, src/lib/model.js:557-599).

Dotted paths are embedded as their lists of segments (the JavaScript splits
the path string on a dot before the search loop runs, and joins prefixes back
only to feed the flat path table, so segment lists are the faithful
currency). -/

/-- A schematype as the resolver distinguishes them: a plain field rule, a
`Types.Mixed` instance, an array rule whose caster is a `Types.Mixed`
instance, or an array rule whose caster carries an embedded schema.  The
numeric tag separates distinct instances of the same kind.  A schema is its
flat path table: bindings from segment lists to schematypes. -/
inductive SType where
  | plain (tag : Nat)
  | mixedT (tag : Nat)
  | mixedArr (casterTag : Nat)
  | docArr (emb : List (String × List String × SType))

/-- A schema's flat path table. -/
abbrev CSchema := List (String × List String × SType)

/-- Embedding of `schema.path(trypath)`: exact lookup of a (nonempty) segment list in the
flat path table.  The empty prefix the JavaScript loop tries last joins to the
empty string, which no schema binds. -/
def schemaPath (sch : CSchema) : List String → Option SType
  | [] => none
  | h :: t => (sch.find? fun b => b.1 = h ∧ b.2.1 = t).map fun b => b.2.2

/-- The prefix-descending `search` loop of `Model._getSchema`
(src/lib/model.js:565-598), trying prefix lengths `p, p-1, …, 1`.  On a match
with an array caster: a Mixed caster is returned itself (`foundschema.caster`)
with no descent; otherwise, when the match stops short of the full path, the
search recurses into the caster's embedded schema, skipping one leading
segment exactly when the next remaining segment is the positional wildcard;
a match covering the full path (or a rule without caster) is returned as
found. -/
def searchFrom (sch : CSchema) (parts : List String) : Nat → Option SType
  | 0 => none
  | q + 1 =>
      match h : schemaPath sch (parts.take (q + 1)) with
      | none => searchFrom sch parts q
      | some f =>
          match f with
          | SType.mixedArr c => some (SType.mixedT c)
          | SType.docArr emb =>
              if q + 1 = parts.length then some (SType.docArr emb)
              else if parts.getD (q + 1) "" = "$" then
                searchFrom emb (parts.drop (q + 2)) (parts.drop (q + 2)).length
              else
                searchFrom emb (parts.drop (q + 1)) (parts.drop (q + 1)).length
          | other => some other
  termination_by p => (parts.length, p)
  decreasing_by
  · exact Prod.Lex.right _ (Nat.lt_succ_self q)
  · have hne : parts ≠ [] := by
      intro hnil
      rw [hnil] at h
      simp [schemaPath] at h
    refine Prod.Lex.left _ _ ?_
    have : 0 < parts.length := List.length_pos.mpr hne
    simp only [List.length_drop]
    omega
  · have hne : parts ≠ [] := by
      intro hnil
      rw [hnil] at h
      simp [schemaPath] at h
    refine Prod.Lex.left _ _ ?_
    have : 0 < parts.length := List.length_pos.mpr hne
    simp only [List.length_drop]
    omega

/-- Embedding of `Model._getSchema` (src/lib/model.js:557-599): first the exact fast path
through the flat table, then the prefix-descending search starting at the full
prefix length. -/
def getSchemaOf (sch : CSchema) (parts : List String) : Option SType :=
  match schemaPath sch parts with
  | some r => some r
  | none => searchFrom sch parts parts.length

/-- One level of nesting: an array-of-embedded-documents field per level, the
innermost schema binding the terminal field to `r`. -/
def nestedSchema : List String → String → SType → CSchema
  | [], f, r => [(f, [], r)]
  | a :: rest, f, r => [(a, [], SType.docArr (nestedSchema rest f r))]

/-- The positional-wildcard path through `nestedSchema`:
`a1.$.a2.$.….$.f`. -/
def wildParts : List String → String → List String
  | [], f => [f]
  | a :: rest, f => a :: "$" :: wildParts rest f

/-! Section: result reassembler (`assignRawDocsToIdStructure`,
src/lib/model.js:1217-1292)

JavaScript arrays that the function mutates are embedded as lists over a value
type with an explicit hole (`vundef`): index assignment past the current
length pads with holes, `push` appends, and the final `forEach` copy-back
skips holes, so the mutated `rawIds` is the built `newOrder` with trailing
holes cut off (the copy-back never writes them after `rawIds.length = 0`).
Found records are identified by their position in `vals`; `vals` itself is
embedded as the list of the records' stringified `_id`s in discovery
order. -/

/-- A slot of the requested-id structure before or after reassembly: a raw id,
`null`, a hole, a nested structure, or (after reassembly) the found record at
position `f` of `vals`. -/
inductive RVal where
  | vid (s : String)
  | vnull
  | vundef
  | varr (l : List RVal)
  | vdoc (f : Nat)

/-- JavaScript `String(id)` for the values the reassembler stringifies (nested
arrays are intercepted before this point). -/
def jsString : RVal → String
  | RVal.vid s => s
  | RVal.vnull => "null"
  | RVal.vundef => "undefined"
  | RVal.varr _ => ""
  | RVal.vdoc _ => ""

/-- Hole test. -/
def isUndef : RVal → Bool
  | RVal.vundef => true
  | _ => false

/-- JavaScript `null === id`. -/
def isNull : RVal → Bool
  | RVal.vnull => true
  | _ => false

/-- JavaScript `a[f] = v` on an array: in-range assignment overwrites, an
out-of-range assignment extends the array with holes up to index `f`. -/
def jsSetIdx (a : List RVal) (f : Nat) (v : RVal) : List RVal :=
  if f < a.length then a.set f v
  else a ++ List.replicate (f - a.length) RVal.vundef ++ [v]

/-- The final copy-back (`rawIds.length = 0` followed by a hole-skipping
`forEach` write-back): the result is `newOrder` without its trailing holes. -/
def dropTrailingUndef (l : List RVal) : List RVal :=
  (l.reverse.dropWhile isUndef).reverse

mutual

/-- Embedding of `assignRawDocsToIdStructure(rawIds, vals, options, recursed)`
(src/lib/model.js:1217-1292).  `sortOpt` is `options.sort`; `sorting` is
recomputed per call as `options.sort && rawIds.length > 1`. -/
def assignRawDocs (rawIds : List RVal) (vals : List String)
    (sortOpt recursed : Bool) : List RVal :=
  dropTrailingUndef
    (assignLoop rawIds vals sortOpt (sortOpt && decide (1 < rawIds.length)) recursed 0 [])

/-- The `for` loop over `rawIds` building `newOrder` (holes are `vundef`):
nested arrays recurse with `recursed = true` and are pushed back in place;
`null` ids pass through only when not sorting; otherwise the id is
stringified and matched against `vals` — in find mode (`recursed`) a match is
index-assigned at its `vals` position when sorting and pushed in discovery
order otherwise, a miss pushes the id itself; in findOne mode the first match
(or `null`) is assigned at the loop index. -/
def assignLoop (l : List RVal) (vals : List String)
    (sortOpt sorting recursed : Bool) (i : Nat) (newOrder : List RVal) : List RVal :=
  match l with
  | [] => newOrder
  | id :: rest =>
      match id with
      | RVal.varr sub =>
          assignLoop rest vals sortOpt sorting recursed (i + 1)
            (newOrder ++ [RVal.varr (assignRawDocs sub vals sortOpt true)])
      | other =>
          if isNull other && !sorting then
            assignLoop rest vals sortOpt sorting recursed (i + 1) (newOrder ++ [other])
          else
            let sid := jsString other
            if recursed then
              match vals.findIdx? (fun v => v == sid) with
              | some f =>
                  assignLoop rest vals sortOpt sorting recursed (i + 1)
                    (if sorting then jsSetIdx newOrder f (RVal.vdoc f)
                     else newOrder ++ [RVal.vdoc f])
              | none =>
                  assignLoop rest vals sortOpt sorting recursed (i + 1)
                    (newOrder ++ [other])
            else
              match vals.findIdx? (fun v => v == sid) with
              | some f =>
                  assignLoop rest vals sortOpt sorting recursed (i + 1)
                    (jsSetIdx newOrder i (RVal.vdoc f))
              | none =>
                  assignLoop rest vals sortOpt sorting recursed (i + 1)
                    (jsSetIdx newOrder i RVal.vnull)

end

/-! Section: theorems.  Helper lemmas first, then one theorem per claim (with
its witness or counterexample where required). -/

/-- Unfolding lemma: a prefix length whose lookup misses steps the search down
to the next shorter prefix. -/
theorem searchFrom_none (sch : CSchema) (parts : List String) (q : Nat)
    (h : schemaPath sch (parts.take (q + 1)) = none) :
    searchFrom sch parts (q + 1) = searchFrom sch parts q := by
  rw [searchFrom.eq_2]
  split
  case _ heq => rfl
  case _ f' heq => rw [h] at heq; cases heq

/-- Unfolding lemma: a prefix bound to an array of Mixed returns the caster
(`foundschema.caster`), a `Types.Mixed` instance, immediately. -/
theorem searchFrom_mixedArr (sch : CSchema) (parts : List String) (q c : Nat)
    (h : schemaPath sch (parts.take (q + 1)) = some (SType.mixedArr c)) :
    searchFrom sch parts (q + 1) = some (SType.mixedT c) := by
  rw [searchFrom.eq_2]
  split
  case _ heq => rw [h] at heq; cases heq
  case _ f' heq =>
    rw [h] at heq
    cases heq
    rfl

/-- Unfolding lemma: a prefix bound to a plain (casterless) rule is returned
as found. -/
theorem searchFrom_plain (sch : CSchema) (parts : List String) (q t : Nat)
    (h : schemaPath sch (parts.take (q + 1)) = some (SType.plain t)) :
    searchFrom sch parts (q + 1) = some (SType.plain t) := by
  rw [searchFrom.eq_2]
  split
  case _ heq => rw [h] at heq; cases heq
  case _ f' heq =>
    rw [h] at heq
    cases heq
    rfl

/-- Unfolding lemma: a prefix bound to an embedded-document array either
covers the whole path (returned as found) or drives the recursive descent,
skipping one segment exactly when the next segment is the wildcard. -/
theorem searchFrom_docArr (sch : CSchema) (parts : List String) (q : Nat) (emb : CSchema)
    (h : schemaPath sch (parts.take (q + 1)) = some (SType.docArr emb)) :
    searchFrom sch parts (q + 1) =
      (if q + 1 = parts.length then some (SType.docArr emb)
       else if parts.getD (q + 1) "" = "$" then
         searchFrom emb (parts.drop (q + 2)) (parts.drop (q + 2)).length
       else
         searchFrom emb (parts.drop (q + 1)) (parts.drop (q + 1)).length) := by
  rw [searchFrom.eq_2]
  split
  case _ heq => rw [h] at heq; cases heq
  case _ f' heq =>
    rw [h] at heq
    cases heq
    rfl

/-- Descent lemma: when every strict intermediate prefix length misses, the
search result from `p` equals the result from `m`. -/
theorem searchFrom_descend (sch : CSchema) (parts : List String) (m p : Nat)
    (hmp : m ≤ p)
    (hnone : ∀ q, m < q → q ≤ p → schemaPath sch (parts.take q) = none) :
    searchFrom sch parts p = searchFrom sch parts m := by
  induction p with
  | zero =>
      have : m = 0 := Nat.le_zero.mp hmp
      rw [this]
  | succ n ih =>
      rcases Nat.lt_or_ge m (n + 1) with hlt | hge
      · rw [searchFrom_none sch parts n (hnone (n + 1) hlt (Nat.le_refl _))]
        exact ih (by omega) fun q hq1 hq2 => hnone q hq1 (by omega)
      · have : m = n + 1 := by omega
        rw [this]

/-- Lookup in a single-binding flat table. -/
theorem schemaPath_single (a : String) (R : SType) (h : String) (t : List String) :
    schemaPath [(a, [], R)] (h :: t) = if a = h ∧ [] = t then some R else none := by
  by_cases hc : a = h ∧ ([] : List String) = t
  · simp [schemaPath, List.find?, hc.1, hc.2.symm]
  · have hc2 : ¬(a = h ∧ t = []) := fun hx => hc ⟨hx.1, hx.2.symm⟩
    simp only [schemaPath, List.find?]
    rw [decide_eq_false hc]
    simp [hc, hc2]

/-- A wildcard path always has at least one segment. -/
theorem wildParts_length_pos (names : List String) (f : String) :
    0 < (wildParts names f).length := by
  cases names <;> simp [wildParts]

/-- Search over a nested array-of-embedded-documents schema resolves the full
wildcard path to the innermost terminal rule, at any nesting depth. -/
theorem searchFrom_wild (names : List String) (f : String) (t : Nat) :
    searchFrom (nestedSchema names f (SType.plain t)) (wildParts names f)
      (wildParts names f).length = some (SType.plain t) := by
  induction names with
  | nil =>
      have h : schemaPath (nestedSchema [] f (SType.plain t)) ((wildParts [] f).take 1)
          = some (SType.plain t) := by
        simp [nestedSchema, wildParts, schemaPath_single]
      simpa [wildParts] using searchFrom_plain _ (wildParts [] f) 0 t h
  | cons a rest ih =>
      have hw : wildParts (a :: rest) f = a :: "$" :: wildParts rest f := rfl
      have hlen : (wildParts (a :: rest) f).length = (wildParts rest f).length + 2 := by
        simp [wildParts]
      have hnone : ∀ q, 1 < q → q ≤ (wildParts (a :: rest) f).length →
          schemaPath (nestedSchema (a :: rest) f (SType.plain t))
            ((wildParts (a :: rest) f).take q) = none := by
        intro q h1 _h2
        obtain ⟨q', rfl⟩ : ∃ q', q = q' + 2 := ⟨q - 2, by omega⟩
        simp [hw, nestedSchema, List.take_succ_cons, schemaPath_single]
      have hdes := searchFrom_descend (nestedSchema (a :: rest) f (SType.plain t))
        (wildParts (a :: rest) f) 1 (wildParts (a :: rest) f).length
        (by have := wildParts_length_pos (a :: rest) f; omega) hnone
      have hfound : schemaPath (nestedSchema (a :: rest) f (SType.plain t))
          ((wildParts (a :: rest) f).take 1)
          = some (SType.docArr (nestedSchema rest f (SType.plain t))) := by
        simp [hw, nestedSchema, schemaPath_single]
      have hstep := searchFrom_docArr (nestedSchema (a :: rest) f (SType.plain t))
        (wildParts (a :: rest) f) 0 (nestedSchema rest f (SType.plain t)) hfound
      rw [hdes, hstep]
      have h1 : ¬(0 + 1 = (wildParts (a :: rest) f).length) := by
        have := wildParts_length_pos rest f
        omega
      rw [if_neg h1]
      have h2 : (wildParts (a :: rest) f).getD (0 + 1) "" = "$" := by
        simp [hw]
      rw [if_pos h2]
      have h3 : (wildParts (a :: rest) f).drop (0 + 2) = wildParts rest f := by
        simp [hw]
      rw [h3]
      exact ih

/-- Taking a positive number of elements of a nonempty list is nonempty. -/
theorem take_succ_ne_nil {l : List String} (n : Nat) (h : l ≠ []) :
    l.take (n + 1) ≠ [] := by
  cases l with
  | nil => exact absurd rfl h
  | cons x xs => simp

/-- Search over a nested array-of-embedded-documents schema also resolves the
path without positional wildcards (the no-skip recursion branch), at any
nesting depth, as long as no segment is literally the wildcard marker. -/
theorem searchFrom_straight (names : List String) (f : String) (t : Nat)
    (hn : "$" ∉ names) (hf : f ≠ "$") :
    searchFrom (nestedSchema names f (SType.plain t)) (names ++ [f])
      (names ++ [f]).length = some (SType.plain t) := by
  induction names with
  | nil =>
      have h : schemaPath (nestedSchema [] f (SType.plain t)) (([f] : List String).take 1)
          = some (SType.plain t) := by
        simp [nestedSchema, schemaPath_single]
      simpa using searchFrom_plain _ ([f] : List String) 0 t h
  | cons a rest ih =>
      have hw : (a :: rest) ++ [f] = a :: (rest ++ [f]) := rfl
      have hnone : ∀ q, 1 < q → q ≤ ((a :: rest) ++ [f]).length →
          schemaPath (nestedSchema (a :: rest) f (SType.plain t))
            (((a :: rest) ++ [f]).take q) = none := by
        intro q h1 _h2
        obtain ⟨q', rfl⟩ : ∃ q', q = q' + 2 := ⟨q - 2, by omega⟩
        have hne : (rest ++ [f]).take (q' + 1) ≠ [] :=
          take_succ_ne_nil q' (by simp)
        rw [hw, List.take_succ_cons]
        simp only [nestedSchema]
        rw [schemaPath_single, if_neg]
        intro hx
        exact hne hx.2.symm
      have hdes := searchFrom_descend (nestedSchema (a :: rest) f (SType.plain t))
        ((a :: rest) ++ [f]) 1 ((a :: rest) ++ [f]).length (by simp) hnone
      have hfound : schemaPath (nestedSchema (a :: rest) f (SType.plain t))
          (((a :: rest) ++ [f]).take 1)
          = some (SType.docArr (nestedSchema rest f (SType.plain t))) := by
        simp [hw, nestedSchema, schemaPath_single]
      have hstep := searchFrom_docArr (nestedSchema (a :: rest) f (SType.plain t))
        ((a :: rest) ++ [f]) 0 (nestedSchema rest f (SType.plain t)) hfound
      rw [hdes, hstep]
      have h1 : ¬(0 + 1 = ((a :: rest) ++ [f]).length) := by
        simp
      rw [if_neg h1]
      have h2 : ¬(((a :: rest) ++ [f]).getD (0 + 1) "" = "$") := by
        cases rest with
        | nil => simpa using hf
        | cons b bs =>
            have : b ≠ "$" := by
              intro hb
              exact hn (by simp [hb])
            simpa using this
      rw [if_neg h2]
      have h3 : ((a :: rest) ++ [f]).drop (0 + 1) = rest ++ [f] := by
        simp
      rw [h3]
      exact ih (fun hx => hn (List.mem_cons_of_mem a hx))

/-- Unfolding lemma: when the exact fast path misses, the resolver runs the
search loop from the full prefix length. -/
theorem getSchemaOf_not_exact (sch : CSchema) (parts : List String)
    (h : schemaPath sch parts = none) :
    getSchemaOf sch parts = searchFrom sch parts parts.length := by
  simp [getSchemaOf, h]

/-- C2: resolving a path through array-of-embedded-document rules recurses
into each embedded schema, skipping the one positional-wildcard segment when
it is the next remaining segment and starting at the remaining tail unchanged
otherwise; in particular both `a1.$.a2.$.….$.f` and `a1.a2.….f` resolve to
the innermost terminal rule at any nesting depth (the wildcard-free variant
needs no segment to be the literal wildcard marker). -/
theorem resolve_wildcard_nested (names : List String) (f : String) (t : Nat)
    (hn : "$" ∉ names) (hf : f ≠ "$") :
    getSchemaOf (nestedSchema names f (SType.plain t)) (wildParts names f)
        = some (SType.plain t) ∧
    getSchemaOf (nestedSchema names f (SType.plain t)) (names ++ [f])
        = some (SType.plain t) := by
  constructor
  · cases names with
    | nil => simp [getSchemaOf, nestedSchema, wildParts, schemaPath_single]
    | cons a rest =>
        have hx : schemaPath (nestedSchema (a :: rest) f (SType.plain t))
            (wildParts (a :: rest) f) = none := by
          rw [show wildParts (a :: rest) f = a :: "$" :: wildParts rest f from rfl]
          simp only [nestedSchema]
          rw [schemaPath_single, if_neg]
          simp
        rw [getSchemaOf_not_exact _ _ hx]
        exact searchFrom_wild (a :: rest) f t
  · cases names with
    | nil => simp [getSchemaOf, nestedSchema, schemaPath_single]
    | cons a rest =>
        have hx : schemaPath (nestedSchema (a :: rest) f (SType.plain t))
            ((a :: rest) ++ [f]) = none := by
          rw [show (a :: rest) ++ [f] = a :: (rest ++ [f]) from rfl]
          simp only [nestedSchema]
          rw [schemaPath_single, if_neg]
          intro hxx
          simpa using congrArg List.length hxx.2
        rw [getSchemaOf_not_exact _ _ hx]
        exact searchFrom_straight (a :: rest) f t hn hf

/-- Witness for C2 at the spec's example: a `comments` array of embedded
documents whose schema holds a `replies` array of embedded documents with a
`title` rule; both `comments.$.replies.$.title` and `comments.replies.title`
resolve to the `title` rule. -/
theorem resolve_wildcard_nested_witness :
    ("$" ∉ (["comments", "replies"] : List String)) ∧ "title" ≠ "$" ∧
    (getSchemaOf (nestedSchema ["comments", "replies"] "title" (SType.plain 0))
        ["comments", "$", "replies", "$", "title"] = some (SType.plain 0) ∧
     getSchemaOf (nestedSchema ["comments", "replies"] "title" (SType.plain 0))
        ["comments", "replies", "title"] = some (SType.plain 0)) :=
  ⟨by simp, by simp,
    resolve_wildcard_nested ["comments", "replies"] "title" 0 (by simp) (by simp)⟩

/-- C7 amended: when a proper path prefix matches a rule whose array caster is
untyped/Mixed, resolution stops with no further descent into the remaining
segments, but it returns the array rule's Mixed caster (`foundschema.caster`),
not the array rule itself. -/
theorem resolve_mixed_array_caster (base : String) (c : Nat) (rest : List String)
    (ht : rest ≠ []) :
    getSchemaOf [(base, [], SType.mixedArr c)] (base :: rest)
      = some (SType.mixedT c) := by
  have hx : schemaPath [(base, [], SType.mixedArr c)] (base :: rest) = none := by
    rw [schemaPath_single, if_neg]
    intro hxx
    exact ht hxx.2.symm
  rw [getSchemaOf_not_exact _ _ hx]
  have hnone : ∀ q, 1 < q → q ≤ (base :: rest).length →
      schemaPath [(base, [], SType.mixedArr c)] ((base :: rest).take q) = none := by
    intro q h1 _h2
    obtain ⟨q', rfl⟩ : ∃ q', q = q' + 2 := ⟨q - 2, by omega⟩
    rw [List.take_succ_cons, schemaPath_single, if_neg]
    intro hxx
    exact take_succ_ne_nil q' ht hxx.2.symm
  have hdes := searchFrom_descend [(base, [], SType.mixedArr c)] (base :: rest) 1
    (base :: rest).length (by simp) hnone
  rw [hdes]
  have hf1 : schemaPath [(base, [], SType.mixedArr c)] ((base :: rest).take 1)
      = some (SType.mixedArr c) := by
    simp [schemaPath_single]
  exact searchFrom_mixedArr _ _ 0 c hf1

/-- Witness for the amended C7: resolving `tags.0.x` against a schema binding
`tags` to an array of Mixed yields the Mixed caster. -/
theorem resolve_mixed_array_caster_witness :
    ((["0", "x"] : List String) ≠ []) ∧
    getSchemaOf [("tags", [], SType.mixedArr 7)] ["tags", "0", "x"]
      = some (SType.mixedT 7) :=
  ⟨by simp, resolve_mixed_array_caster "tags" 7 ["0", "x"] (by simp)⟩

/-- Counterexample to C7 as stated: at the concrete schema binding `tags` to
an array of Mixed (the array rule is `SType.mixedArr 7`, its caster
`SType.mixedT 7`), resolving `tags.0.x` returns the caster, which is not the
array rule itself. -/
theorem resolve_mixed_array_rule_counterexample :
    getSchemaOf [("tags", [], SType.mixedArr 7)] ["tags", "0", "x"]
        = some (SType.mixedT 7) ∧
    some (SType.mixedT 7) ≠ some (SType.mixedArr 7) := by
  constructor
  · have hx : schemaPath [("tags", [], SType.mixedArr 7)] ["tags", "0", "x"] = none := by
      rw [schemaPath_single, if_neg]
      simp
    rw [getSchemaOf_not_exact _ _ hx]
    have h2 : schemaPath [("tags", [], SType.mixedArr 7)] (["tags", "0", "x"].take 3)
        = none := by
      simpa using hx
    have h1 : schemaPath [("tags", [], SType.mixedArr 7)] (["tags", "0", "x"].take 2)
        = none := by
      rw [show (["tags", "0", "x"] : List String).take 2 = ["tags", "0"] from rfl]
      rw [schemaPath_single, if_neg]
      simp
    rw [show (["tags", "0", "x"] : List String).length = 3 from rfl]
    rw [searchFrom_none _ _ 2 h2, searchFrom_none _ _ 1 h1]
    have h0 : schemaPath [("tags", [], SType.mixedArr 7)] (["tags", "0", "x"].take 1)
        = some (SType.mixedArr 7) := by
      simp [schemaPath_single]
    exact searchFrom_mixedArr _ _ 0 7 h0
  · simp

/-- Length of a JavaScript index assignment: in-range writes keep the length,
out-of-range writes extend the array to just past the written index. -/
theorem jsSetIdx_length (a : List RVal) (f : Nat) (v : RVal) :
    (jsSetIdx a f v).length = max a.length (f + 1) := by
  unfold jsSetIdx
  split
  · simp only [List.length_set]
    omega
  · simp only [List.length_append, List.length_replicate, List.length_cons,
      List.length_nil]
    omega

/-- Reading back the written index after a JavaScript index assignment. -/
theorem jsSetIdx_get_self (a : List RVal) (f : Nat) (v : RVal) :
    (jsSetIdx a f v)[f]? = some v := by
  unfold jsSetIdx
  split
  case _ hlt =>
      rw [List.getElem?_set_self']
      rw [List.getElem?_eq_getElem hlt]
      rfl
  case _ hge =>
      rw [List.append_assoc, List.getElem?_append_right (by omega)]
      rw [List.getElem?_append_right (by simp)]
      simp

/-- Reading an untouched in-range index after a JavaScript index assignment. -/
theorem jsSetIdx_get_ne (a : List RVal) (f : Nat) (v : RVal) (j : Nat)
    (hne : j ≠ f) (hj : j < a.length) :
    (jsSetIdx a f v)[j]? = a[j]? := by
  unfold jsSetIdx
  split
  case _ hlt => rw [List.getElem?_set_ne (Ne.symm hne)]
  case _ hge => rw [List.append_assoc, List.getElem?_append_left hj]

/-- A slot already holding the found record for its own index keeps it across
further writes of the sorted find-mode loop (those writes always store the
record matching the written index). -/
theorem jsSetIdx_assigned_preserved (a : List RVal) (j f : Nat)
    (h : a[j]? = some (RVal.vdoc j)) :
    (jsSetIdx a f (RVal.vdoc f))[j]? = some (RVal.vdoc j) := by
  by_cases hjf : j = f
  · subst hjf
    exact jsSetIdx_get_self a j (RVal.vdoc j)
  · have hj : j < a.length := (List.getElem?_eq_some.mp h).choose
    rw [jsSetIdx_get_ne a f _ j hjf hj]
    exact h

/-- A member of a list is found by the first-index search, below the length. -/
theorem findIdx_beq_mem (l : List String) (s : String) :
    ∀ i : Nat, s ∈ l →
      ∃ f, List.findIdx? (fun v => v == s) l i = some f ∧ f < i + l.length := by
  induction l with
  | nil => intro i h; cases h
  | cons v t ih =>
      intro i h
      by_cases hv : v = s
      · refine ⟨i, ?_, by simp only [List.length_cons]; omega⟩
        rw [List.findIdx?_cons, if_pos (by simp [hv])]
      · have hs : s ∈ t := by
          cases h with
          | head => exact absurd rfl hv
          | tail _ hm => exact hm
        obtain ⟨f, hf, hfl⟩ := ih (i + 1) hs
        refine ⟨f, ?_, by simp only [List.length_cons]; omega⟩
        rw [List.findIdx?_cons, if_neg (by simp [hv])]
        exact hf

/-- In a duplicate-free list, the first index matching the element at `f`
is `f` itself. -/
theorem findIdx_beq_nodup (l : List String) :
    ∀ (f i : Nat) (hf : f < l.length), l.Nodup →
      List.findIdx? (fun v => v == l[f]) l i = some (i + f) := by
  induction l with
  | nil =>
      intro f i hf _
      exact absurd hf (by simp)
  | cons v t ih =>
      intro f i hf hnd
      cases f with
      | zero =>
          rw [List.findIdx?_cons, if_pos (by simp)]
          simp
      | succ g =>
          have hvt : v ∉ t := (List.nodup_cons.mp hnd).1
          have hg : g < t.length := by simpa using hf
          have hget : (v :: t)[g + 1] = t[g] := by simp
          rw [hget]
          have hvne : ¬((v == t[g]) = true) := by
            simp only [beq_iff_eq]
            intro he
            exact hvt (he ▸ List.getElem_mem hg)
          rw [List.findIdx?_cons, if_neg hvne]
          rw [ih g (i + 1) hg (List.nodup_cons.mp hnd).2]
          congr 1
          omega

/-- Unfolding lemma: the reassembly loop on an exhausted id list returns the
built order. -/
theorem assignLoop_nil (vals : List String) (sortOpt sorting recursed : Bool)
    (i : Nat) (acc : List RVal) :
    assignLoop [] vals sortOpt sorting recursed i acc = acc := by
  rw [assignLoop]

/-- Unfolding lemma: in sorted find mode, one matched plain id performs the
index assignment at the record's position in the found list and moves on. -/
theorem assignLoop_vid_sorted (s : String) (rest : List RVal) (vals : List String)
    (i : Nat) (acc : List RVal) (f : Nat)
    (hfind : List.findIdx? (fun v => v == s) vals 0 = some f) :
    assignLoop (RVal.vid s :: rest) vals true true true i acc =
      assignLoop rest vals true true true (i + 1) (jsSetIdx acc f (RVal.vdoc f)) := by
  rw [assignLoop]
  all_goals try (intro sub hx; cases hx)
  simp only [isNull, jsString]
  rw [hfind]
  simp

/-- Invariant of the sorted find-mode loop over plain ids that all match: the
built order never outgrows the found list, already-assigned slots persist, and
every processed id's record ends at the record's own found-list index. -/
theorem assignLoop_sorted_char (vals : List String) :
    ∀ (ids : List String) (i : Nat) (acc : List RVal),
    (∀ s ∈ ids, s ∈ vals) →
    acc.length ≤ vals.length →
    (assignLoop (ids.map RVal.vid) vals true true true i acc).length ≤ vals.length ∧
    (∀ j, acc[j]? = some (RVal.vdoc j) →
      (assignLoop (ids.map RVal.vid) vals true true true i acc)[j]? = some (RVal.vdoc j)) ∧
    (∀ s ∈ ids, ∀ f, List.findIdx? (fun v => v == s) vals 0 = some f →
      (assignLoop (ids.map RVal.vid) vals true true true i acc)[f]? = some (RVal.vdoc f)) := by
  intro ids
  induction ids with
  | nil =>
      intro i acc _ hlen
      rw [List.map_nil, assignLoop_nil]
      exact ⟨hlen, fun j h => h, fun s hs => absurd hs (List.not_mem_nil s)⟩
  | cons s rest ih =>
      intro i acc hmem hlen
      obtain ⟨f0, hf0, hf0l⟩ := findIdx_beq_mem vals s 0 (hmem s (List.mem_cons_self s rest))
      rw [List.map_cons, assignLoop_vid_sorted s (rest.map RVal.vid) vals i acc f0 hf0]
      have hacc' : (jsSetIdx acc f0 (RVal.vdoc f0)).length ≤ vals.length := by
        rw [jsSetIdx_length]
        omega
      obtain ⟨ihlen, ihpres, ihcov⟩ := ih (i + 1) (jsSetIdx acc f0 (RVal.vdoc f0))
        (fun x hx => hmem x (List.mem_cons_of_mem s hx)) hacc'
      refine ⟨ihlen, ?_, ?_⟩
      · intro j hj
        exact ihpres j (jsSetIdx_assigned_preserved acc j f0 hj)
      · intro x hx f hfind
        rcases List.mem_cons.mp hx with rfl | hxr
        · obtain rfl : f0 = f := Option.some.inj (hf0.symm.trans hfind)
          exact ihpres f0 (jsSetIdx_get_self acc f0 (RVal.vdoc f0))
        · exact ihcov x hxr f hfind

/-- The copy-back is the identity on a built order without holes. -/
theorem dropTrailingUndef_of_no_undef (l : List RVal)
    (h : ∀ x ∈ l, isUndef x = false) : dropTrailingUndef l = l := by
  unfold dropTrailingUndef
  have hstep : l.reverse.dropWhile isUndef = l.reverse := by
    cases hr : l.reverse with
    | nil => rfl
    | cons x xs =>
        rw [List.dropWhile_cons]
        have hx : x ∈ l := by
          have hxr : x ∈ l.reverse := by
            rw [hr]
            exact List.mem_cons_self x xs
          simpa using hxr
        rw [h x hx]
        simp
  rw [hstep, List.reverse_reverse]

/-- C1 amended: in find-many mode with an explicit sort, each matched found
record is placed at the index of that record in the found list, so the final
output follows the found-record (backend sort) order, not the requested-id
order.  Stated for requested ids and found records that match each other up
(distinct found ids, every id found, every record requested). -/
theorem assign_sorted_follows_vals (ids vals : List String)
    (hlen2 : 2 ≤ ids.length) (hnd : vals.Nodup)
    (hiv : ∀ s ∈ ids, s ∈ vals) (hvi : ∀ v ∈ vals, v ∈ ids) :
    assignRawDocs (ids.map RVal.vid) vals true true
      = (List.range vals.length).map RVal.vdoc := by
  have hsort : (true && decide (1 < (ids.map RVal.vid).length)) = true := by
    simp only [List.length_map, Bool.true_and, decide_eq_true_eq]
    omega
  rw [assignRawDocs, hsort]
  obtain ⟨hrlen, _, hcov⟩ := assignLoop_sorted_char vals ids 0 [] hiv (by simp)
  have hall : ∀ j, j < vals.length →
      (assignLoop (ids.map RVal.vid) vals true true true 0 [])[j]? = some (RVal.vdoc j) := by
    intro j hj
    have hmemv : vals[j] ∈ vals := List.getElem_mem hj
    have hfind : List.findIdx? (fun v => v == vals[j]) vals 0 = some j := by
      simpa using findIdx_beq_nodup vals j 0 hj hnd
    exact hcov (vals[j]) (hvi _ hmemv) j hfind
  have hlenge : vals.length ≤
      (assignLoop (ids.map RVal.vid) vals true true true 0 []).length := by
    cases Nat.eq_zero_or_pos vals.length with
    | inl h0 => omega
    | inr hpos =>
        have hsome := hall (vals.length - 1) (by omega)
        have hlt := (List.getElem?_eq_some.mp hsome).choose
        omega
  have hnoundef : ∀ x ∈ assignLoop (ids.map RVal.vid) vals true true true 0 [],
      isUndef x = false := by
    intro x hx
    rcases List.mem_iff_getElem?.mp hx with ⟨n, hn⟩
    have hnlt := (List.getElem?_eq_some.mp hn).choose
    have hv := hall n (by omega)
    rw [hv] at hn
    obtain rfl : x = RVal.vdoc n := (Option.some.inj hn).symm
    rfl
  rw [dropTrailingUndef_of_no_undef _ hnoundef]
  apply List.ext_getElem?
  intro n
  by_cases hn : n < vals.length
  · rw [hall n hn, List.getElem?_map, List.getElem?_range hn]
    rfl
  · rw [List.getElem?_eq_none (by omega :
        (assignLoop (ids.map RVal.vid) vals true true true 0 []).length ≤ n)]
    rw [List.getElem?_eq_none (by simp only [List.length_map, List.length_range]; omega)]

/-- Counterexample to C1 as stated, at the spec's own example: requested ids
`x, y` with found records discovered in order `y, x` (`RVal.vdoc 0` is the
`y` record, `RVal.vdoc 1` the `x` record) and sorting on.  The code places
each record at its found-list index (`newOrder[f] = vals[f]`), yielding the
discovery order `y, x` rather than the requested order `x, y` the claim
predicts. -/
theorem assign_sorted_requested_order_counterexample :
    assignRawDocs [RVal.vid "x", RVal.vid "y"] ["y", "x"] true true
        = [RVal.vdoc 0, RVal.vdoc 1] ∧
    [RVal.vdoc 0, RVal.vdoc 1] ≠ [RVal.vdoc 1, RVal.vdoc 0] := by
  constructor
  · simp [assignRawDocs, assignLoop, jsSetIdx, dropTrailingUndef, jsString, isNull,
      isUndef, List.findIdx?]
  · simp

/-- Witness for the amended C1 at the spec's example. -/
theorem assign_sorted_follows_vals_witness :
    2 ≤ (["x", "y"] : List String).length ∧ (["y", "x"] : List String).Nodup ∧
    (∀ s ∈ (["x", "y"] : List String), s ∈ (["y", "x"] : List String)) ∧
    (∀ v ∈ (["y", "x"] : List String), v ∈ (["x", "y"] : List String)) ∧
    assignRawDocs ((["x", "y"] : List String).map RVal.vid) ["y", "x"] true true
      = (List.range (["y", "x"] : List String).length).map RVal.vdoc :=
  ⟨by decide, by decide, by decide, by decide,
    assign_sorted_follows_vals ["x", "y"] ["y", "x"] (by decide) (by decide)
      (by decide) (by decide)⟩

/-- C3: after a failed backend round trip of a save issued while the entity
was new (an insert), `isNew` is `true` again (retry reset); after a failed
round trip of a save issued while it was not new (an update), `isNew` stays
`false`. -/
theorem save_failure_isNew (d : DocState) (e : String) :
    (d.isNew = true → (saveRoundTrip d (Except.error e)).1.isNew = true) ∧
    (d.isNew = false → (saveRoundTrip d (Except.error e)).1.isNew = false) := by
  constructor <;> intro h <;> simp [saveRoundTrip, saveIssue, handleSave, h]

/-- Witness for C3: a fresh new document and an already-persisted document,
both failing their round trip. -/
theorem save_failure_isNew_witness :
    (({ isNew := true, inserting := false, docId := none, docRev := none } : DocState).isNew
        = true ∧
      (saveRoundTrip { isNew := true, inserting := false, docId := none, docRev := none }
        (Except.error "boom")).1.isNew = true) ∧
    (({ isNew := false, inserting := true, docId := some "d", docRev := some "r" } : DocState).isNew
        = false ∧
      (saveRoundTrip { isNew := false, inserting := true, docId := some "d", docRev := some "r" }
        (Except.error "boom")).1.isNew = false) :=
  ⟨⟨rfl, (save_failure_isNew _ "boom").1 rfl⟩, ⟨rfl, (save_failure_isNew _ "boom").2 rfl⟩⟩

/-- The sequential index loop on a spec list whose first failure is `s`:
everything before `s` is issued in order, `s` is issued, nothing after it is,
and the failure is reported. -/
theorem ensureIndexesGo_first_failure (post : List (IndexSpec × Option String))
    (s : IndexSpec) (e : String) :
    ∀ pre : List (IndexSpec × Option String), (∀ x ∈ pre, x.2 = none) →
      ensureIndexesGo (pre ++ (s, some e) :: post)
        = { issued := pre.map Prod.fst ++ [s], indexEvent := some (some e),
            cbArg := some e } := by
  intro pre
  induction pre with
  | nil => intro _; rfl
  | cons x xs ih =>
      intro hpre
      obtain ⟨x1, x2⟩ := x
      have hx2 : x2 = none := hpre (x1, x2) (List.mem_cons_self _ _)
      subst hx2
      rw [List.cons_append]
      simp only [ensureIndexesGo]
      rw [ih fun y hy => hpre y (List.mem_cons_of_mem _ hy)]
      simp

/-- C4: `ensureIndexes` issues backend calls strictly one at a time; when the
spec after the all-successful block `pre` fails with `e`, exactly the specs of
`pre` followed by the failing spec are issued (none of `post` ever is), the
`index` lifecycle event carries `e`, and the caller's callback receives the
same `e`. -/
theorem ensureIndexes_sequential (pre post : List (IndexSpec × Option String))
    (s : IndexSpec) (e : String)
    (hpre : ∀ x ∈ pre, x.2 = none) :
    (ensureIndexes (pre ++ (s, some e) :: post)).issued = pre.map Prod.fst ++ [s] ∧
    (ensureIndexes (pre ++ (s, some e) :: post)).indexEvent = some (some e) ∧
    (ensureIndexes (pre ++ (s, some e) :: post)).cbArg = some e := by
  have hne : (pre ++ (s, some e) :: post).isEmpty = false := by
    cases pre <;> rfl
  rw [ensureIndexes, if_neg (by rw [hne]; exact Bool.false_ne_true)]
  rw [ensureIndexesGo_first_failure post s e pre hpre]
  exact ⟨rfl, rfl, rfl⟩

/-- Witness for C4 at the spec's example: three specs with the second
failing; the third is never issued and the completion error is the second
spec's error. -/
theorem ensureIndexes_sequential_witness :
    (∀ x ∈ ([(⟨"k1", "o1"⟩, none)] : List (IndexSpec × Option String)), x.2 = none) ∧
    ((ensureIndexes [(⟨"k1", "o1"⟩, none), (⟨"k2", "o2"⟩, some "idxboom"),
        (⟨"k3", "o3"⟩, none)]).issued = [⟨"k1", "o1"⟩, ⟨"k2", "o2"⟩] ∧
      (ensureIndexes [(⟨"k1", "o1"⟩, none), (⟨"k2", "o2"⟩, some "idxboom"),
        (⟨"k3", "o3"⟩, none)]).indexEvent = some (some "idxboom") ∧
      (ensureIndexes [(⟨"k1", "o1"⟩, none), (⟨"k2", "o2"⟩, some "idxboom"),
        (⟨"k3", "o3"⟩, none)]).cbArg = some "idxboom") :=
  ⟨by decide,
    ensureIndexes_sequential [(⟨"k1", "o1"⟩, none)] [(⟨"k3", "o3"⟩, none)]
      ⟨"k2", "o2"⟩ "idxboom" (by decide)⟩

/-- C5 evaluated at the failing input: a two-record batch whose first record's
init fails.  The caller's callback is invoked twice, first with the error and
then — because the final callback is unconditional and the countdown gate is
the dead expression of src/lib/model.js:509 — with the full entity array, so
the batch is not aborted and results are still delivered. -/
theorem hydrate_error_not_single_callback :
    hydrateA (Sum.inr [some "boom", none])
        = [HydrateCall.errored "boom", HydrateCall.deliveredArr [0, 1]] ∧
    (hydrateA (Sum.inr [some "boom", none])).length ≠ 1 := by
  decide

/-- C6 evaluated at the failing input: the second hydrate copy
(src/lib/model.js:1120-1138) delivers a one-element array for a single
(non-array) input record, while the first copy (src/lib/model.js:496-514)
delivers the single entity as the claim states. -/
theorem hydrate_single_shape :
    hydrateB (Sum.inl none) = [HydrateCall.deliveredArr [0]] ∧
    HydrateCall.deliveredArr [0] ≠ HydrateCall.deliveredOne 0 ∧
    hydrateA (Sum.inl none) = [HydrateCall.deliveredOne 0] := by
  decide

/-- C8: a second remove request while a removal is in flight attaches its
callback to the same pending promise (in registration order) and issues no
second backend call; over the whole run exactly one backend remove is issued
and both callers receive the one outcome. -/
theorem remove_concurrent_dedup (a b : Nat) (r : RemOutcome) :
    (removeRun { removing := none }
        [RemoveEvent.request a, RemoveEvent.request b]).1
      = { removing := some { callbacks := [a, b], result := none } } ∧
    ((removeRun { removing := none }
        [RemoveEvent.request a, RemoveEvent.request b, RemoveEvent.settle r]).2.count
        RemoveObs.backendRemove = 1) ∧
    RemoveObs.callbackFired a r ∈
      (removeRun { removing := none }
        [RemoveEvent.request a, RemoveEvent.request b, RemoveEvent.settle r]).2 ∧
    RemoveObs.callbackFired b r ∈
      (removeRun { removing := none }
        [RemoveEvent.request a, RemoveEvent.request b, RemoveEvent.settle r]).2 := by
  cases r <;>
    simp [removeRun, removeRequest, removeSettle, List.count_cons, List.count_nil]

/-- Counterexample to C9 as stated: after a remove settles successfully, the
pending marker is still set (the success branch's null-assignment chain omits
`self.$__.removing`), and a subsequent remove request attaches to the finished
operation instead of issuing a new backend call — the run holds one backend
call, not the two the claim predicts. -/
theorem remove_success_marker_counterexample :
    (removeRun { removing := none }
        [RemoveEvent.request 0, RemoveEvent.settle RemOutcome.ok,
          RemoveEvent.request 1]).1.removing ≠ none ∧
    ((removeRun { removing := none }
        [RemoveEvent.request 0, RemoveEvent.settle RemOutcome.ok,
          RemoveEvent.request 1]).2.count RemoveObs.backendRemove = 1) := by
  decide

/-- C9 amended: the pending-removal marker is cleared only on failure — after
a failed settle a new remove request issues a fresh backend call, while after
a successful settle the marker keeps the completed promise and a new request
issues no backend call. -/
theorem remove_settle_marker (cbs : List Nat) (e : String) (c : Nat) :
    (removeSettle { removing := some { callbacks := cbs, result := none } }
        (RemOutcome.fail e)).1.removing = none ∧
    (removeRequest (removeSettle { removing := some { callbacks := cbs, result := none } }
        (RemOutcome.fail e)).1 c).2 = [RemoveObs.backendRemove] ∧
    (removeSettle { removing := some { callbacks := cbs, result := none } }
        RemOutcome.ok).1.removing
      = some { callbacks := cbs, result := some RemOutcome.ok } ∧
    (removeRequest (removeSettle { removing := some { callbacks := cbs, result := none } }
        RemOutcome.ok).1 c).2.count RemoveObs.backendRemove = 0 := by
  refine ⟨rfl, rfl, rfl, ?_⟩
  simp [removeSettle, removeRequest, List.count_cons, List.count_nil]

/-- Reading back the field written by a JavaScript property assignment. -/
theorem getField_setField (d : RawDoc) (k : String) (v : JValue) :
    getField (setField d k v) k = some v := by
  induction d with
  | nil => simp [setField, getField]
  | cons p rest ih =>
      obtain ⟨k', w⟩ := p
      by_cases hk : k' = k
      · simp [setField, getField, hk]
      · simp [setField, getField, hk, ih]

/-- C10: class-level `Model.remove` routes the caller's documents to
`bulkRemove`, which sets `_deleted = true` on every caller-supplied document
object in place before handing the very same array to the backend save. -/
theorem bulkRemove_mutates_input (docs : List RawDoc) :
    (modelRemoveBulk docs).docsAfter
        = docs.map (fun d => setField d "_deleted" (JValue.jbool true)) ∧
    (∀ d ∈ (modelRemoveBulk docs).docsAfter,
        getField d "_deleted" = some (JValue.jbool true)) ∧
    (modelRemoveBulk docs).savePayload = (modelRemoveBulk docs).docsAfter := by
  refine ⟨rfl, ?_, rfl⟩
  intro d hd
  simp only [modelRemoveBulk, bulkRemove, List.mem_map] at hd
  obtain ⟨d0, _, rfl⟩ := hd
  exact getField_setField d0 "_deleted" (JValue.jbool true)

end MongooseCouch
